import Mathlib

/-!
Shallow embedding of `src/main.py` (Project Euler 26, reciprocal cycles).

The Python program `main(n)` asserts `n` is an integer greater than 2, then
scans `d_orig = 2, …, n-1`.  For each candidate it strips all factors of 2
(counting them) and then all factors of 5 (counting them).  If the reduced
value `d` is 1 the candidate is skipped (terminating decimal).  If some
factor was stripped the candidate is also skipped (its cycle equals that of
the smaller reduced denominator).  Otherwise `d = d_orig` is coprime to 10
and the multiplicative order `w` of 10 modulo `d` is computed by the loop
`w = 1; p = 10 % d; while p != 1: p = (10*p) % d; w += 1`, and the
accumulator `(d_best, d_cycle)` is updated when `w > d_cycle`.  The pair
`(d_best, d_cycle)` is returned, initialized to `(None, 0)`.
-/

namespace Euler26

/-- The loop `while d % p == 0: d //= p; count += 1` from `main`
(lines 78–84 of `src/main.py`), with explicit fuel (one unit per test of
the guard), returning the reduced value and the count. -/
def stripCountAux (p : Nat) : Nat → Nat → Nat × Nat
  | 0, d => (d, 0)
  | fuel + 1, d =>
    if d % p = 0 then
      let r := stripCountAux p fuel (d / p)
      (r.1, r.2 + 1)
    else (d, 0)

/-- The strip loop run with fuel `d`, which suffices for every `d ≥ 1` and
`p ≥ 2` (each division at least halves `d`; fuel-irrelevance is proved
below).  The Python loop diverges at `d = 0`; every call site has `d ≥ 2`. -/
def stripCount (p d : Nat) : Nat × Nat := stripCountAux p d d

/-- The inner order-computation loop of `main` (lines 99–103 of
`src/main.py`): state `(p, w)`, one fuel unit per test of `p ≠ 1`.
Called with fuel `d`, which suffices (proved below). -/
def orderAux (d : Nat) : Nat → Nat → Nat → Nat
  | 0, _, w => w
  | fuel + 1, p, w => if p = 1 then w else orderAux d fuel (10 * p % d) (w + 1)

/-- The value `w` computed by the inner loop of `main` for a reduced
denominator `d`: start `p = 10 % d`, `w = 1`; iterate while `p ≠ 1`. -/
def cycleW (d : Nat) : Nat := orderAux d d (10 % d) 1

/-- One iteration of the outer `for d_orig in range(2, n)` loop of `main`
(lines 74–113 of `src/main.py`), acting on the accumulator
`(d_best, d_cycle)`. -/
def step (acc : Option Nat × Nat) (dOrig : Nat) : Option Nat × Nat :=
  let s2 := stripCount 2 dOrig
  let s5 := stripCount 5 s2.1
  let d := s5.1
  if d ≠ 1 then
    if s2.2 = 0 ∧ s5.2 = 0 then
      let w := cycleW d
      if acc.2 < w then (some d, w) else acc
    else acc
  else acc

/-- `main` after its assertion: fold the loop body over `range(2, n)` and
return `(d_best, d_cycle)` (lines 71–114 of `src/main.py`). -/
def main (n : Nat) : Option Nat × Nat :=
  (List.range' 2 (n - 2)).foldl step (none, 0)

/-- `main` including its precondition check `assert type(n) == int and n > 2`
(line 69 of `src/main.py`): an assertion failure is modelled as
`Except.error "InvalidArgument"`.  (The `type(n) == int` half of the
assertion is enforced here by the type of the argument.) -/
def mainChecked (n : Int) : Except String (Option Nat × Nat) :=
  if 2 < n then Except.ok (main n.toNat) else Except.error "InvalidArgument"

/-- The accumulator after processing candidates `2, …, m + 1`. -/
def mainAcc (m : Nat) : Option Nat × Nat :=
  (List.range' 2 m).foldl step (none, 0)

/-- The reduced part of a denominator: all factors of 2 then all factors
of 5 stripped, exactly as the loop body of `main` computes `d` from
`d_orig`. -/
def reduce10 (d : Nat) : Nat := (stripCount 5 (stripCount 2 d).1).1

/-- Spec-side notion (section 4 of the design): `1/d` has a repeating
decimal cycle of length `w` iff the reduced part `d'` of `d` is not 1 and
`w` is the multiplicative order of 10 modulo `d'`, i.e. the smallest
positive `w` with `10 ^ w ≡ 1 (mod d')`. -/
def hasCycle (d w : Nat) : Prop :=
  reduce10 d ≠ 1 ∧ 0 < w ∧ 10 ^ w % reduce10 d = 1 ∧
    ∀ v, 0 < v → 10 ^ v % reduce10 d = 1 → w ≤ v

/-- The loop body with `extra` additional fuel units granted to the inner
order loop; used to state that the inner loop terminates within `d`
iterations (extra fuel never changes the result). -/
def stepExtra (extra : Nat) (acc : Option Nat × Nat) (dOrig : Nat) :
    Option Nat × Nat :=
  let s2 := stripCount 2 dOrig
  let s5 := stripCount 5 s2.1
  let d := s5.1
  if d ≠ 1 then
    if s2.2 = 0 ∧ s5.2 = 0 then
      let w := orderAux d (d + extra) (10 % d) 1
      if acc.2 < w then (some d, w) else acc
    else acc
  else acc

/-- `main` with `extra` additional fuel units for every inner loop. -/
def mainExtra (extra n : Nat) : Option Nat × Nat :=
  (List.range' 2 (n - 2)).foldl (stepExtra extra) (none, 0)

/-! ### Properties of `stripCount` -/

lemma stripCountAux_spec (p : Nat) (hp : 2 ≤ p) :
    ∀ d, 0 < d → ∀ fuel, d ≤ fuel →
      (stripCountAux p fuel d).1 % p ≠ 0 ∧ 0 < (stripCountAux p fuel d).1 ∧
        (stripCountAux p fuel d).1 ∣ d := by
  intro d
  induction d using Nat.strong_induction_on with
  | _ d ih =>
    intro hd fuel hfuel
    obtain ⟨f, rfl⟩ : ∃ f, fuel = f + 1 := ⟨fuel - 1, by omega⟩
    simp only [stripCountAux]
    by_cases hmod : d % p = 0
    · rw [if_pos hmod]
      have hpd : p ∣ d := Nat.dvd_of_mod_eq_zero hmod
      have hdiv : d / p < d := Nat.div_lt_self hd (by omega)
      have hdp : 0 < d / p := Nat.div_pos (Nat.le_of_dvd hd hpd) (by omega)
      obtain ⟨h1, h2, h3⟩ := ih (d / p) hdiv hdp f (by omega)
      exact ⟨h1, h2, h3.trans (Nat.div_dvd_of_dvd hpd)⟩
    · rw [if_neg hmod]
      exact ⟨hmod, hd, dvd_rfl⟩

/-- Fuel-irrelevance of the strip loop: any fuel of at least `d` units
yields the same result, i.e. the while loop terminates within `d` tests. -/
lemma stripCountAux_fuel (p : Nat) (hp : 2 ≤ p) :
    ∀ d, 0 < d → ∀ f g, d ≤ f → d ≤ g →
      stripCountAux p f d = stripCountAux p g d := by
  intro d
  induction d using Nat.strong_induction_on with
  | _ d ih =>
    intro hd f g hf hg
    · obtain ⟨f', rfl⟩ : ∃ f', f = f' + 1 := ⟨f - 1, by omega⟩
      obtain ⟨g', rfl⟩ : ∃ g', g = g' + 1 := ⟨g - 1, by omega⟩
      simp only [stripCountAux]
      by_cases hmod : d % p = 0
      · rw [if_pos hmod, if_pos hmod]
        have hpd : p ∣ d := Nat.dvd_of_mod_eq_zero hmod
        have hdiv : d / p < d := Nat.div_lt_self hd (by omega)
        have hdp : 0 < d / p := Nat.div_pos (Nat.le_of_dvd hd hpd) (by omega)
        rw [ih (d / p) hdiv hdp f' g' (by omega) (by omega)]
      · rw [if_neg hmod, if_neg hmod]

lemma stripCount_of_mod_ne (p d : Nat) (h : d % p ≠ 0) :
    stripCount p d = (d, 0) := by
  unfold stripCount
  rcases d with _ | d
  · rfl
  · simp only [stripCountAux, if_neg h]

lemma stripCount_fst_spec (p : Nat) (hp : 2 ≤ p) :
    ∀ d, 0 < d → (stripCount p d).1 % p ≠ 0 ∧ 0 < (stripCount p d).1 ∧
      (stripCount p d).1 ∣ d := by
  intro d hd
  exact stripCountAux_spec p hp d hd d (le_refl d)

lemma stripCount_snd_ne (p d : Nat) (_hp : 2 ≤ p) (hd : 0 < d)
    (h : d % p = 0) : (stripCount p d).2 ≠ 0 := by
  unfold stripCount
  obtain ⟨f, rfl⟩ : ∃ f, d = f + 1 := ⟨d - 1, by omega⟩
  simp only [stripCountAux, if_pos h]
  omega

/-! ### The inner order-computation loop -/

lemma orderAux_eq (d N : Nat) (hN1 : 10 ^ N % d = 1)
    (hNmin : ∀ v, 0 < v → 10 ^ v % d = 1 → N ≤ v) :
    ∀ fuel w, 0 < w → w ≤ N → N < w + fuel →
      orderAux d fuel (10 ^ w % d) w = N := by
  intro fuel
  induction fuel with
  | zero => intro w _ hwN hNf; omega
  | succ fuel ih =>
    intro w hw hwN hNf
    simp only [orderAux]
    by_cases hp : 10 ^ w % d = 1
    · rw [if_pos hp]
      have := hNmin w hw hp
      omega
    · rw [if_neg hp]
      have hwNlt : w < N := by
        rcases Nat.lt_or_ge w N with h | h
        · exact h
        · have hwN' : w = N := le_antisymm hwN h
          exact absurd (hwN' ▸ hN1) hp
      have hpow : 10 * (10 ^ w % d) % d = 10 ^ (w + 1) % d :=
        calc 10 * (10 ^ w % d) % d
            = (10 % d) * (10 ^ w % d % d) % d := by rw [Nat.mul_mod]
          _ = (10 % d) * (10 ^ w % d) % d := by
              rw [Nat.mod_mod_of_dvd _ dvd_rfl]
          _ = 10 * 10 ^ w % d := by rw [← Nat.mul_mod]
          _ = 10 ^ (w + 1) % d := by rw [← pow_succ']
      rw [hpow]
      exact ih (w + 1) (by omega) (by omega) (by omega)

lemma coprime_ten (d : Nat) (h2 : d % 2 ≠ 0) (h5 : d % 5 ≠ 0) :
    Nat.Coprime 10 d := by
  have c2 : Nat.Coprime 2 d := Nat.prime_two.coprime_iff_not_dvd.mpr (by omega)
  have c5 : Nat.Coprime 5 d := Nat.prime_five.coprime_iff_not_dvd.mpr (by omega)
  have h10 : (10 : Nat) = 2 * 5 := rfl
  rw [h10]
  exact Nat.Coprime.mul c2 c5

lemma exists_order (d : Nat) (hd : 2 ≤ d) (h2 : d % 2 ≠ 0) (h5 : d % 5 ≠ 0) :
    ∃ v, (0 < v ∧ 10 ^ v % d = 1) ∧ v ≤ Nat.totient d := by
  have hc : Nat.Coprime 10 d := coprime_ten d h2 h5
  have ht : 10 ^ Nat.totient d ≡ 1 [MOD d] := Nat.ModEq.pow_totient hc
  have htpos : 0 < Nat.totient d := Nat.totient_pos.mpr (by omega)
  refine ⟨Nat.totient d, ⟨htpos, ?_⟩, le_refl _⟩
  have h1 : 10 ^ Nat.totient d % d = 1 % d := ht
  rwa [Nat.one_mod_eq_one.mpr (by omega)] at h1

/-- Master property of the inner loop: for a reduced denominator `d ≥ 3`
coprime to 10, `cycleW d` is the least positive `w` with `10 ^ w ≡ 1 (mod d)`,
it is at most `φ d`, and granting the loop more fuel does not change the
result (the loop terminates within `d` tests). -/
lemma cycleW_spec (d : Nat) (hd : 3 ≤ d) (h2 : d % 2 ≠ 0) (h5 : d % 5 ≠ 0) :
    (0 < cycleW d ∧ 10 ^ cycleW d % d = 1 ∧
      (∀ v, 0 < v → 10 ^ v % d = 1 → cycleW d ≤ v)) ∧
    cycleW d ≤ Nat.totient d ∧
    ∀ extra, orderAux d (d + extra) (10 % d) 1 = cycleW d := by
  obtain ⟨T, ⟨hT0, hT1⟩, hTle⟩ := exists_order d (by omega) h2 h5
  have hex : ∃ v, 0 < v ∧ 10 ^ v % d = 1 := ⟨T, hT0, hT1⟩
  set N := Nat.find hex with hNdef
  obtain ⟨hN0, hN1⟩ := Nat.find_spec hex
  have hNmin : ∀ v, 0 < v → 10 ^ v % d = 1 → N ≤ v := fun v hv h1 =>
    Nat.find_min' hex ⟨hv, h1⟩
  have hNT : N ≤ Nat.totient d := (hNmin T hT0 hT1).trans hTle
  have htot : Nat.totient d < d := Nat.totient_lt d (by omega)
  have hkey : ∀ fuel, N < 1 + fuel → orderAux d fuel (10 % d) 1 = N := by
    intro fuel hf
    have h10 : (10 : Nat) % d = 10 ^ 1 % d := by rw [pow_one]
    rw [h10]
    exact orderAux_eq d N hN1 hNmin fuel 1 (by omega) hN0 hf
  have hcy : cycleW d = N := hkey d (by omega)
  refine ⟨⟨?_, ?_, ?_⟩, ?_, ?_⟩
  · rw [hcy]; exact hN0
  · rw [hcy]; exact hN1
  · rw [hcy]; exact hNmin
  · rw [hcy]; exact hNT
  · intro extra
    rw [hcy]
    exact hkey (d + extra) (by omega)

/-! ### Branch analysis of the loop body -/

lemma step_eq_skip (acc : Option Nat × Nat) (k : Nat) (hk : 2 ≤ k)
    (h : k % 2 = 0 ∨ k % 5 = 0) : step acc k = acc := by
  unfold step
  rcases h with h2 | h5
  · have hs2 : (stripCount 2 k).2 ≠ 0 :=
      stripCount_snd_ne 2 k (by omega) (by omega) h2
    by_cases hd1 : (stripCount 5 (stripCount 2 k).1).1 ≠ 1 <;> simp [hd1, hs2]
  · by_cases h2 : k % 2 = 0
    · have hs2 : (stripCount 2 k).2 ≠ 0 :=
        stripCount_snd_ne 2 k (by omega) (by omega) h2
      by_cases hd1 : (stripCount 5 (stripCount 2 k).1).1 ≠ 1 <;>
        simp [hd1, hs2]
    · rw [stripCount_of_mod_ne 2 k h2]
      have hs5 : (stripCount 5 k).2 ≠ 0 :=
        stripCount_snd_ne 5 k (by omega) (by omega) h5
      by_cases hd1 : (stripCount 5 k).1 ≠ 1 <;> simp [hd1, hs5]

lemma step_eq_compute (acc : Option Nat × Nat) (k : Nat) (hk : 2 ≤ k)
    (h2 : k % 2 ≠ 0) (h5 : k % 5 ≠ 0) :
    step acc k = if acc.2 < cycleW k then (some k, cycleW k) else acc := by
  have hk1 : k ≠ 1 := by omega
  simp only [step, stripCount_of_mod_ne 2 k h2, stripCount_of_mod_ne 5 k h5]
  simp [hk1]

/-! ### The outer search loop -/

lemma one_le_cycleW (d : Nat) : 1 ≤ cycleW d := by
  have h : ∀ fuel p w, w ≤ orderAux d fuel p w := by
    intro fuel
    induction fuel with
    | zero => intro p w; exact le_refl w
    | succ fuel ih =>
      intro p w
      simp only [orderAux]
      split
      · exact le_refl w
      · exact (Nat.le_succ w).trans (ih _ _)
  exact h d (10 % d) 1

lemma main_eq_mainAcc (n : Nat) : main n = mainAcc (n - 2) := rfl

lemma mainAcc_succ (m : Nat) : mainAcc (m + 1) = step (mainAcc m) (2 + m) := by
  unfold mainAcc
  rw [List.range'_concat, List.foldl_append]
  simp

/-- Loop invariant of `main`: after processing candidates `2, …, m + 1`
the accumulator is either untouched (and no candidate so far was coprime
to 10), or `(some d, cycleW d)` where `d` is a coprime-to-10 candidate
whose `cycleW` is maximal so far, and `d` is the least candidate attaining
that maximum. -/
lemma mainAcc_spec (m : Nat) :
    (mainAcc m = (none, 0) ∧
      ∀ k, 2 ≤ k → k < 2 + m → ¬(k % 2 ≠ 0 ∧ k % 5 ≠ 0)) ∨
    (∃ d, mainAcc m = (some d, cycleW d) ∧ 2 ≤ d ∧ d < 2 + m ∧
      d % 2 ≠ 0 ∧ d % 5 ≠ 0 ∧
      (∀ k, 2 ≤ k → k < 2 + m → k % 2 ≠ 0 → k % 5 ≠ 0 →
        cycleW k ≤ cycleW d) ∧
      (∀ k, 2 ≤ k → k < 2 + m → k % 2 ≠ 0 → k % 5 ≠ 0 →
        cycleW d ≤ cycleW k → d ≤ k)) := by
  induction m with
  | zero =>
    left
    exact ⟨rfl, fun k hk2 hk => by omega⟩
  | succ m ih =>
    rw [mainAcc_succ]
    by_cases hcop : (2 + m) % 2 ≠ 0 ∧ (2 + m) % 5 ≠ 0
    · obtain ⟨hc2, hc5⟩ := hcop
      rw [step_eq_compute _ (2 + m) (by omega) hc2 hc5]
      rcases ih with ⟨hacc, hnone⟩ | ⟨d, hacc, hd2, hdm, hdc2, hdc5, hmax, hleast⟩
      · rw [hacc]
        have h01 : ((none : Option Nat), 0).2 < cycleW (2 + m) :=
          one_le_cycleW (2 + m)
        rw [if_pos h01]
        right
        refine ⟨2 + m, rfl, by omega, by omega, hc2, hc5, ?_, ?_⟩
        · intro k hk2 hkm hk2' hk5'
          have hk : k = 2 + m := by
            rcases Nat.lt_or_ge k (2 + m) with h | h
            · exact absurd ⟨hk2', hk5'⟩ (hnone k hk2 h)
            · omega
          rw [hk]
        · intro k hk2 hkm hk2' hk5' _
          have hk : k = 2 + m := by
            rcases Nat.lt_or_ge k (2 + m) with h | h
            · exact absurd ⟨hk2', hk5'⟩ (hnone k hk2 h)
            · omega
          omega
      · rw [hacc]
        by_cases hlt : (some d, cycleW d).2 < cycleW (2 + m)
        · rw [if_pos hlt]
          right
          refine ⟨2 + m, rfl, by omega, by omega, hc2, hc5, ?_, ?_⟩
          · intro k hk2 hkm hk2' hk5'
            rcases Nat.lt_or_ge k (2 + m) with h | h
            · exact le_of_lt (lt_of_le_of_lt (hmax k hk2 h hk2' hk5') hlt)
            · have hk : k = 2 + m := by omega
              rw [hk]
          · intro k hk2 hkm hk2' hk5' hge
            rcases Nat.lt_or_ge k (2 + m) with h | h
            · exfalso
              have := hmax k hk2 h hk2' hk5'
              simp only at hlt hge
              omega
            · omega
        · rw [if_neg hlt]
          right
          simp only [not_lt] at hlt
          refine ⟨d, rfl, hd2, by omega, hdc2, hdc5, ?_, ?_⟩
          · intro k hk2 hkm hk2' hk5'
            rcases Nat.lt_or_ge k (2 + m) with h | h
            · exact hmax k hk2 h hk2' hk5'
            · have hk : k = 2 + m := by omega
              rw [hk]; exact hlt
          · intro k hk2 hkm hk2' hk5' hge
            rcases Nat.lt_or_ge k (2 + m) with h | h
            · exact hleast k hk2 h hk2' hk5' hge
            · omega
    · rw [step_eq_skip _ (2 + m) (by omega) (by omega)]
      rcases ih with ⟨hacc, hnone⟩ | ⟨d, hacc, hd2, hdm, hdc2, hdc5, hmax, hleast⟩
      · left
        refine ⟨hacc, ?_⟩
        intro k hk2 hkm
        rcases Nat.lt_or_ge k (2 + m) with h | h
        · exact hnone k hk2 h
        · have hk : k = 2 + m := by omega
          rw [hk]; exact hcop
      · right
        refine ⟨d, hacc, hd2, by omega, hdc2, hdc5, ?_, ?_⟩
        · intro k hk2 hkm hk2' hk5'
          rcases Nat.lt_or_ge k (2 + m) with h | h
          · exact hmax k hk2 h hk2' hk5'
          · exfalso
            have hk : k = 2 + m := by omega
            exact hcop (hk ▸ ⟨hk2', hk5'⟩)
        · intro k hk2 hkm hk2' hk5' hge
          rcases Nat.lt_or_ge k (2 + m) with h | h
          · exact hleast k hk2 h hk2' hk5' hge
          · exfalso
            have hk : k = 2 + m := by omega
            exact hcop (hk ▸ ⟨hk2', hk5'⟩)

/-! ### The reduced part and the spec-side cycle notion -/

lemma reduce10_spec (d : Nat) (hd : 0 < d) :
    reduce10 d % 2 ≠ 0 ∧ reduce10 d % 5 ≠ 0 ∧ 0 < reduce10 d ∧
      reduce10 d ∣ d := by
  obtain ⟨h2a, h2b, h2c⟩ := stripCount_fst_spec 2 (by omega) d hd
  obtain ⟨h5a, h5b, h5c⟩ :=
    stripCount_fst_spec 5 (by omega) (stripCount 2 d).1 h2b
  refine ⟨?_, h5a, h5b, h5c.trans h2c⟩
  intro hmod
  have h2dvd : 2 ∣ (stripCount 2 d).1 :=
    (Nat.dvd_of_mod_eq_zero hmod).trans h5c
  exact h2a (Nat.dvd_iff_mod_eq_zero.mp h2dvd)

lemma reduce10_eq_self (d : Nat) (h2 : d % 2 ≠ 0) (h5 : d % 5 ≠ 0) :
    reduce10 d = d := by
  simp only [reduce10, stripCount_of_mod_ne 2 d h2,
    stripCount_of_mod_ne 5 d h5]

/-- `hasCycle d w` holds exactly when the reduced part of `d` is not 1 and
`w` is the value the inner loop computes for that reduced part. -/
lemma hasCycle_iff (d w : Nat) (hd : 0 < d) :
    hasCycle d w ↔ reduce10 d ≠ 1 ∧ w = cycleW (reduce10 d) := by
  obtain ⟨h2, h5, hpos, _⟩ := reduce10_spec d hd
  constructor
  · rintro ⟨hne, hw0, hw1, hwmin⟩
    have hr3 : 3 ≤ reduce10 d := by omega
    obtain ⟨⟨hc0, hc1, hcmin⟩, _, _⟩ := cycleW_spec (reduce10 d) hr3 h2 h5
    exact ⟨hne, le_antisymm (hwmin _ hc0 hc1) (hcmin _ hw0 hw1)⟩
  · rintro ⟨hne, rfl⟩
    have hr3 : 3 ≤ reduce10 d := by omega
    obtain ⟨⟨hc0, hc1, hcmin⟩, _, _⟩ := cycleW_spec (reduce10 d) hr3 h2 h5
    exact ⟨hne, hc0, hc1, hcmin⟩

/-! ### Monotonicity of the accumulator -/

lemma step_snd_le (acc : Option Nat × Nat) (k : Nat) :
    acc.2 ≤ (step acc k).2 := by
  simp only [step]
  split
  · split
    · split
      · next h => exact le_of_lt h
      · exact le_refl _
    · exact le_refl _
  · exact le_refl _

lemma foldl_step_snd_le (L : List Nat) (acc : Option Nat × Nat) :
    acc.2 ≤ (L.foldl step acc).2 := by
  induction L generalizing acc with
  | nil => exact le_refl _
  | cons x xs ih => exact (step_snd_le acc x).trans (ih (step acc x))

lemma mainAcc_snd_mono (m k : Nat) : (mainAcc m).2 ≤ (mainAcc (m + k)).2 := by
  unfold mainAcc
  have happ : List.range' 2 m ++ List.range' (2 + m) k = List.range' 2 (m + k) := by
    have h := List.range'_append 2 m k 1
    simp only [one_mul, Nat.add_comm k m] at h
    simpa using h
  rw [← happ, List.foldl_append]
  exact foldl_step_snd_le _ _

/-! ### Fuel-irrelevance of the whole search -/

lemma stepExtra_eq_skip (extra : Nat) (acc : Option Nat × Nat) (k : Nat)
    (hk : 2 ≤ k) (h : k % 2 = 0 ∨ k % 5 = 0) : stepExtra extra acc k = acc := by
  unfold stepExtra
  rcases h with h2 | h5
  · have hs2 : (stripCount 2 k).2 ≠ 0 :=
      stripCount_snd_ne 2 k (by omega) (by omega) h2
    by_cases hd1 : (stripCount 5 (stripCount 2 k).1).1 ≠ 1 <;> simp [hd1, hs2]
  · by_cases h2 : k % 2 = 0
    · have hs2 : (stripCount 2 k).2 ≠ 0 :=
        stripCount_snd_ne 2 k (by omega) (by omega) h2
      by_cases hd1 : (stripCount 5 (stripCount 2 k).1).1 ≠ 1 <;>
        simp [hd1, hs2]
    · rw [stripCount_of_mod_ne 2 k h2]
      have hs5 : (stripCount 5 k).2 ≠ 0 :=
        stripCount_snd_ne 5 k (by omega) (by omega) h5
      by_cases hd1 : (stripCount 5 k).1 ≠ 1 <;> simp [hd1, hs5]

lemma stepExtra_eq_compute (extra : Nat) (acc : Option Nat × Nat) (k : Nat)
    (hk : 2 ≤ k) (h2 : k % 2 ≠ 0) (h5 : k % 5 ≠ 0) :
    stepExtra extra acc k =
      if acc.2 < cycleW k then (some k, cycleW k) else acc := by
  have hk1 : k ≠ 1 := by omega
  obtain ⟨_, _, hfuel⟩ := cycleW_spec k (by omega) h2 h5
  simp only [stepExtra, stripCount_of_mod_ne 2 k h2,
    stripCount_of_mod_ne 5 k h5]
  simp [hk1, hfuel extra]

lemma stepExtra_eq_step (extra : Nat) (acc : Option Nat × Nat) (k : Nat)
    (hk : 2 ≤ k) : stepExtra extra acc k = step acc k := by
  by_cases hc : k % 2 ≠ 0 ∧ k % 5 ≠ 0
  · rw [stepExtra_eq_compute extra acc k hk hc.1 hc.2,
      step_eq_compute acc k hk hc.1 hc.2]
  · rw [stepExtra_eq_skip extra acc k hk (by omega),
      step_eq_skip acc k hk (by omega)]

lemma foldl_congr_ge2 (f g : Option Nat × Nat → Nat → Option Nat × Nat)
    (h : ∀ acc k, 2 ≤ k → f acc k = g acc k) :
    ∀ L : List Nat, (∀ k ∈ L, 2 ≤ k) → ∀ acc, L.foldl f acc = L.foldl g acc := by
  intro L
  induction L with
  | nil => intro _ acc; rfl
  | cons x xs ih =>
    intro hmem acc
    simp only [List.foldl_cons]
    rw [h acc x (hmem x (by simp))]
    exact ih (fun k hk => hmem k (by simp [hk])) _

lemma mainExtra_eq_main (extra n : Nat) : mainExtra extra n = main n := by
  unfold mainExtra main
  refine foldl_congr_ge2 _ _ (fun acc k hk => stepExtra_eq_step extra acc k hk)
    _ ?_ _
  intro k hk
  rw [List.mem_range'_1] at hk
  omega

/-! ### Claims -/

/-- C1 counterexample: at `n = 3` (which satisfies `n > 2`) `main` returns
no denominator at all — the pair is `(None, 0)` — so it does not return a
smallest denominator of `[2, 3)` with the longest repeating cycle. -/
theorem C1_counterexample : 2 < 3 ∧ (main 3).1 = none := by decide

/-- C1 (amended to `n ≥ 4`): `main n` returns `(some d, w)` where
`d ∈ [2, n)`, `1/d` has a repeating decimal cycle of length `w`, `w` is the
strictly longest cycle length among all denominators in `[2, n)`, and `d`
is the smallest-valued denominator attaining that length. -/
theorem C1_longest_cycle (n : Nat) (h : 4 ≤ n) :
    ∃ d w, main n = (some d, w) ∧ 2 ≤ d ∧ d < n ∧ hasCycle d w ∧
      (∀ d' w', 2 ≤ d' → d' < n → hasCycle d' w' → w' ≤ w) ∧
      (∀ d' w', 2 ≤ d' → d' < n → hasCycle d' w' → w ≤ w' → d ≤ d') := by
  rw [main_eq_mainAcc]
  rcases mainAcc_spec (n - 2) with ⟨_, hnone⟩ |
    ⟨d, hacc, hd2, hdm, hdc2, hdc5, hmax, hleast⟩
  · exact absurd (by omega : (3 : Nat) % 2 ≠ 0 ∧ 3 % 5 ≠ 0)
      (hnone 3 (by omega) (by omega))
  · refine ⟨d, cycleW d, hacc, hd2, by omega, ?_, ?_, ?_⟩
    · rw [hasCycle_iff d (cycleW d) (by omega),
        reduce10_eq_self d hdc2 hdc5]
      exact ⟨by omega, rfl⟩
    · intro d' w' h2' hn' hcyc
      have hd'pos : 0 < d' := by omega
      rw [hasCycle_iff d' w' hd'pos] at hcyc
      obtain ⟨hne, rfl⟩ := hcyc
      obtain ⟨hr2, hr5, hrpos, hrdvd⟩ := reduce10_spec d' hd'pos
      have hrle : reduce10 d' ≤ d' := Nat.le_of_dvd hd'pos hrdvd
      exact hmax (reduce10 d') (by omega) (by omega) hr2 hr5
    · intro d' w' h2' hn' hcyc hge
      have hd'pos : 0 < d' := by omega
      rw [hasCycle_iff d' w' hd'pos] at hcyc
      obtain ⟨hne, rfl⟩ := hcyc
      obtain ⟨hr2, hr5, hrpos, hrdvd⟩ := reduce10_spec d' hd'pos
      have hrle : reduce10 d' ≤ d' := Nat.le_of_dvd hd'pos hrdvd
      have hdr := hleast (reduce10 d') (by omega) (by omega) hr2 hr5 hge
      omega

/-- C1 witness: the amended claim instantiated at `n = 11`. -/
theorem C1_witness :
    ∃ d w, main 11 = (some d, w) ∧ 2 ≤ d ∧ d < 11 ∧ hasCycle d w ∧
      (∀ d' w', 2 ≤ d' → d' < 11 → hasCycle d' w' → w' ≤ w) ∧
      (∀ d' w', 2 ≤ d' → d' < 11 → hasCycle d' w' → w ≤ w' → d ≤ d') :=
  C1_longest_cycle 11 (by decide)

/-- C2 counterexample: `n = 3` satisfies `n > 2`, yet `main 3` returns the
"none found" sentinel `(None, 0)` — the only candidate `d = 2` strips to 1
and is skipped. -/
theorem C2_counterexample : 2 < 3 ∧ main 3 = (none, 0) := by decide

/-- C2 (amended to `n ≥ 4`): some denominator in `[2, n)` produces a
repeating cycle, so `main n` returns a defined pair with cycle length
at least 1, never the sentinel. -/
theorem C2_defined_result (n : Nat) (h : 4 ≤ n) :
    ∃ d w, main n = (some d, w) ∧ 1 ≤ w := by
  rw [main_eq_mainAcc]
  rcases mainAcc_spec (n - 2) with ⟨_, hnone⟩ | ⟨d, hacc, _⟩
  · exact absurd (by omega : (3 : Nat) % 2 ≠ 0 ∧ 3 % 5 ≠ 0)
      (hnone 3 (by omega) (by omega))
  · exact ⟨d, cycleW d, hacc, one_le_cycleW d⟩

/-- C2 witness: the amended claim instantiated at `n = 4`. -/
theorem C2_witness : ∃ d w, main 4 = (some d, w) ∧ 1 ≤ w :=
  C2_defined_result 4 (by decide)

/-- C3: for `n = 11`, `main` returns exactly the pair `(7, 6)`. -/
theorem C3_eleven : main 11 = (some 7, 6) := by decide

/-- C4: `mainChecked` (the embedding of `main` with its assertion) fails
with the `InvalidArgument` condition exactly when the integer argument is
not greater than 2, and returns the computed pair otherwise.  (The
`type(n) == int` half of the Python assertion is enforced here by the
argument type.) -/
theorem C4_invalid_argument (n : Int) :
    (¬ 2 < n → mainChecked n = Except.error "InvalidArgument") ∧
    (2 < n → mainChecked n = Except.ok (main n.toNat)) := by
  constructor
  · intro h; unfold mainChecked; rw [if_neg h]
  · intro h; unfold mainChecked; rw [if_pos h]

/-- C4 witness: `n = 2` and `n = 0` raise, `n = 5` returns a pair. -/
theorem C4_witness :
    mainChecked 2 = Except.error "InvalidArgument" ∧
    mainChecked 0 = Except.error "InvalidArgument" ∧
    mainChecked 5 = Except.ok (main 5) :=
  ⟨(C4_invalid_argument 2).1 (by decide), (C4_invalid_argument 0).1 (by decide),
    (C4_invalid_argument 5).2 (by decide)⟩

/-- C5: for every `d ≥ 3` coprime to 10 the inner loop of `main` terminates
(extra fuel beyond the `d` tests it is given never changes its result) and
produces `w = cycleW d` equal to the multiplicative order of 10 modulo `d`
— the smallest positive `w` with `10 ^ w ≡ 1 (mod d)` — with `1 ≤ w ≤ d`. -/
theorem C5_inner_loop_order (d : Nat) (hd : 3 ≤ d)
    (h2 : d % 2 ≠ 0) (h5 : d % 5 ≠ 0) :
    (∀ extra, orderAux d (d + extra) (10 % d) 1 = cycleW d) ∧
    10 ^ cycleW d % d = 1 ∧
    (∀ v, 0 < v → 10 ^ v % d = 1 → cycleW d ≤ v) ∧
    1 ≤ cycleW d ∧ cycleW d ≤ d := by
  obtain ⟨⟨h0, h1, hmin⟩, hT, hfuel⟩ := cycleW_spec d hd h2 h5
  have htot := Nat.totient_lt d (by omega)
  exact ⟨hfuel, h1, hmin, h0, by omega⟩

/-- C5 witness: instantiated at `d = 7`, where the loop yields 6. -/
theorem C5_witness :
    cycleW 7 = 6 ∧ 10 ^ cycleW 7 % 7 = 1 ∧ 1 ≤ cycleW 7 ∧ cycleW 7 ≤ 7 := by
  have h := C5_inner_loop_order 7 (by decide) (by decide) (by decide)
  exact ⟨by decide, h.2.1, h.2.2.2.1, h.2.2.2.2⟩

/-- C6: whenever `main n` returns a defined denominator `d` with cycle
length `w`, then `w ≤ d - 1`. -/
theorem C6_cycle_le (n d w : Nat) (h : main n = (some d, w)) : w ≤ d - 1 := by
  rw [main_eq_mainAcc] at h
  rcases mainAcc_spec (n - 2) with ⟨hacc, _⟩ |
    ⟨d0, hacc, hd2, _, hdc2, hdc5, _, _⟩
  · rw [hacc] at h
    simp [Prod.ext_iff] at h
  · rw [hacc] at h
    have hd : some d0 = some d := congrArg Prod.fst h
    have hw : cycleW d0 = w := congrArg Prod.snd h
    have hdd : d0 = d := by injection hd
    obtain ⟨_, hT, _⟩ := cycleW_spec d0 (by omega) hdc2 hdc5
    have htot := Nat.totient_lt d0 (by omega)
    omega

/-- C6 witness: at `n = 11`, the returned pair `(7, 6)` satisfies
`6 ≤ 7 - 1`. -/
theorem C6_witness : (6 : Nat) ≤ 7 - 1 := C6_cycle_le 11 7 6 (by decide)

/-- C7: any candidate divisible by 2 or 5 (in particular one whose only
prime factors are 2 and 5) is skipped without altering the accumulator,
and whenever the returned `best_d` is defined it is coprime to 10. -/
theorem C7_skip_policy :
    (∀ acc k, 2 ≤ k → (k % 2 = 0 ∨ k % 5 = 0) → step acc k = acc) ∧
    (∀ n d, (main n).1 = some d → d % 2 ≠ 0 ∧ d % 5 ≠ 0) := by
  refine ⟨step_eq_skip, ?_⟩
  intro n d h
  rw [main_eq_mainAcc] at h
  rcases mainAcc_spec (n - 2) with ⟨hacc, _⟩ |
    ⟨d0, hacc, _, _, hdc2, hdc5, _, _⟩
  · rw [hacc] at h
    simp at h
  · rw [hacc] at h
    simp only [Option.some.injEq] at h
    omega

/-- C7 witness: `d = 8, 20, 40` leave the accumulator unchanged, and the
`best_d` returned for `n = 11` is coprime to 10. -/
theorem C7_witness :
    step ((none : Option Nat), 0) 8 = ((none : Option Nat), 0) ∧
    step ((none : Option Nat), 0) 20 = ((none : Option Nat), 0) ∧
    step ((none : Option Nat), 0) 40 = ((none : Option Nat), 0) ∧
    (7 % 2 ≠ 0 ∧ 7 % 5 ≠ 0) :=
  ⟨C7_skip_policy.1 (none, 0) 8 (by decide) (Or.inl (by decide)),
    C7_skip_policy.1 (none, 0) 20 (by decide) (Or.inl (by decide)),
    C7_skip_policy.1 (none, 0) 40 (by decide) (Or.inl (by decide)),
    C7_skip_policy.2 11 7 (by decide)⟩

/-- C8: for every `n > 2`, `main n` terminates — the outer loop is the
finite fold over `range(2, n)`, and each inner order loop finishes within
its `d` allotted tests: granting every inner loop arbitrarily more fuel
never changes the result, and the loop count `cycleW d` is at most `d`. -/
theorem C8_termination (n : Nat) (_hn : 2 < n) :
    (∀ extra, mainExtra extra n = main n) ∧
    (∀ d, 3 ≤ d → d % 2 ≠ 0 → d % 5 ≠ 0 → cycleW d ≤ d) := by
  refine ⟨fun extra => mainExtra_eq_main extra n, ?_⟩
  intro d hd h2 h5
  obtain ⟨_, hT, _⟩ := cycleW_spec d hd h2 h5
  have htot := Nat.totient_lt d (by omega)
  omega

/-- C8 witness: at `n = 11` with 100 units of extra fuel, and `d = 7`. -/
theorem C8_witness : mainExtra 100 11 = main 11 ∧ cycleW 7 ≤ 7 :=
  ⟨(C8_termination 11 (by decide)).1 100,
    (C8_termination 11 (by decide)).2 7 (by decide) (by decide) (by decide)⟩

/-- C9: the best cycle length is monotone in the bound: for
`2 < n1 < n2`, the cycle-length component of `main n2` is at least that of
`main n1`. -/
theorem C9_monotone (n1 n2 : Nat) (h1 : 2 < n1) (h12 : n1 < n2) :
    (main n1).2 ≤ (main n2).2 := by
  rw [main_eq_mainAcc, main_eq_mainAcc]
  have h : n2 - 2 = (n1 - 2) + (n2 - n1) := by omega
  rw [h]
  exact mainAcc_snd_mono (n1 - 2) (n2 - n1)

/-- C9 witness: instantiated at `n1 = 4`, `n2 = 11`. -/
theorem C9_witness : (main 4).2 ≤ (main 11).2 :=
  C9_monotone 4 11 (by decide) (by decide)

/-- C10: `main 3` returns the sentinel `(None, 0)`: the only candidate
`d = 2` strips to 1 (with one factor of 2 counted) and is skipped, leaving
the accumulator at its initial value. -/
theorem C10_edge_three :
    main 3 = (none, 0) ∧ stripCount 2 2 = (1, 1) ∧
      step ((none : Option Nat), 0) 2 = ((none : Option Nat), 0) := by
  refine ⟨by decide, by decide, by decide⟩

end Euler26
